import Mathlib

/-!
Verification of the llm-txt-generator repository (Go).

The Go sources are shallowly embedded: Go strings become `List Char`
(UTF-8 runes), every function is a computable Lean definition mirroring
the corresponding Go function, and the effectful collaborators
(filesystem, git, the remote embedding endpoint) are passed in as
explicit environments so that the pure control flow of the Go code is
preserved.

Source files covered:
  internal/content/content_processor.go  (GetFiles, ProcessFile,
                                          processMarkdown, processCode)
  internal/repo/repo_handler.go          (CloneRepo)
  internal/embedding/embedding_service.go (CreateEmbeddings)
  main.go                                (generateDocs per-file loop)
-/

namespace LlmTxt

/-- Go strings are modeled as lists of runes. -/
abbrev Str := List Char

/-- Literal helper: a Lean string literal as a `Str`. -/
def str (s : String) : Str := s.toList

/-! ## Character classes used by Go's regexp and strings packages -/

/-- RE2 word class `\w` = `[0-9A-Za-z_]` (ASCII). -/
def isWordChar (c : Char) : Bool := c.isAlpha || c.isDigit || c == '_'

/-- RE2 whitespace class `\s` = `[\t\n\f\r ]`. -/
def isRegexSpace (c : Char) : Bool :=
  c == ' ' || c == '\t' || c == '\n' || c.val == 12 || c == '\r'

/-- `unicode.IsSpace`, used by `strings.TrimSpace`. -/
def isUniSpace (c : Char) : Bool :=
  ([9, 10, 11, 12, 13, 32, 0x85, 0xA0, 0x1680,
    0x2000, 0x2001, 0x2002, 0x2003, 0x2004, 0x2005, 0x2006, 0x2007,
    0x2008, 0x2009, 0x200A, 0x2028, 0x2029, 0x202F, 0x205F, 0x3000] :
      List UInt32).contains c.val

/-- `strings.TrimSpace`: drop leading and trailing Unicode whitespace. -/
def trimSpace (cs : Str) : Str :=
  ((cs.dropWhile isUniSpace).reverse.dropWhile isUniSpace).reverse

/-- Split a string at every occurrence of `sep` (the naive split: `n`
separators yield `n + 1` pieces). -/
def splitOnChar (sep : Char) : Str → List Str
  | [] => [[]]
  | c :: rest =>
    match splitOnChar sep rest with
    | [] => [[c]]
    | l :: ls => if c = sep then [] :: l :: ls else (c :: l) :: ls

/-- `bufio.ScanLines` drops one trailing `\r` from a line. -/
def dropCR (l : Str) : Str :=
  if l.getLast? = some '\r' then l.dropLast else l

/-- The sequence of lines produced by a `bufio.Scanner` with `ScanLines`:
split on `\n`, no empty token after a final newline, one trailing `\r`
stripped per line, and no token at all for empty input. -/
def scanLines (cs : Str) : List Str :=
  if cs.isEmpty then []
  else
    let parts := splitOnChar '\n' cs
    let parts := if parts.getLast? = some [] then parts.dropLast else parts
    parts.map dropCR

/-- `filepath.Base`: last element of the path, after dropping trailing
slashes; `"."` for the empty path, `"/"` for an all-slash path. -/
def baseName (p : Str) : Str :=
  if p.isEmpty then str "."
  else
    let q := (p.reverse.dropWhile (fun c => c = '/')).reverse
    if q.isEmpty then str "/"
    else (q.reverse.takeWhile (fun c => c ≠ '/')).reverse

/-- `filepath.Ext`: the suffix of the final path element starting at its
final dot, or empty when the final element has no dot. -/
def extOf (p : Str) : Str :=
  let revSeg := p.reverse.takeWhile (fun c => c ≠ '/')
  if revSeg.contains '.' then '.' :: (revSeg.takeWhile (fun c => c ≠ '.')).reverse
  else []

/-! ## Data model (struct Content, struct CodeBlock)

The numeric components of an embedding vector are never inspected by any
property below (only their presence or absence matters, and the Go code's
float32→float64 widening is value-preserving), so the scalar type of a
vector is modeled by `Int`. -/

/-- Go struct `CodeBlock`: a labeled block of code, with an optional
embedding vector (`omitempty`, absent until the annotator runs). -/
structure CodeBlock where
  language : Str
  code : Str
  embedding : Option (List Int) := none
deriving DecidableEq

/-- Go struct `Content`: the record extracted from one file. -/
structure Content where
  title : Str
  description : Str
  source : Str
  content : Str
  codeBlocks : List CodeBlock
  type : Str
deriving DecidableEq

/-! ## Markdown extraction (processMarkdown)

The code-block pattern is `regexp.MustCompile("```(\\w+)?\\n(.*?)\\n```")`
with Go's default flags, so `.` does not match `\n`, `(\w+)?` is greedy
and `(.*?)` is lazy.  At a fixed starting position the pattern is in fact
deterministic: after the opening fence the maximal `\w` run must be
followed by `\n` (a shorter split would leave a word character where `\n`
is required), and since the body cannot contain `\n`, the lazy body is
forced to be the text up to the next `\n`, which must be followed by the
closing fence.  `FindAllStringSubmatch` takes successive leftmost
non-overlapping matches. -/

/-- The triple-backtick fence. -/
def fence : Str := "```".toList

/-- Try to match `` ```(\w+)?\n(.*?)\n``` `` at the start of `cs`.
On success, return the raw tag capture, the body capture, and the
remaining input after the match. -/
def matchBlockAt (cs : Str) : Option (Str × Str × Str) :=
  if fence.isPrefixOf cs then
    let afterFence := cs.drop 3
    let tag := afterFence.takeWhile isWordChar
    match afterFence.dropWhile isWordChar with
    | '\n' :: afterNl =>
      let body := afterNl.takeWhile (fun c => c ≠ '\n')
      match afterNl.dropWhile (fun c => c ≠ '\n') with
      | '\n' :: afterBody =>
        if fence.isPrefixOf afterBody then some (tag, body, afterBody.drop 3)
        else none
      | _ => none
    | _ => none
  else none

/-- Successive leftmost non-overlapping matches of the code-block
pattern.  The fuel argument (instantiated with the input length, and
only decremented together with consuming at least one character) is a
termination device. -/
def findBlocksGo : Nat → Str → List (Str × Str)
  | 0, _ => []
  | _ + 1, [] => []
  | fuel + 1, c :: cs =>
    match matchBlockAt (c :: cs) with
    | some (tag, body, rest) => (tag, body) :: findBlocksGo fuel rest
    | none => findBlocksGo fuel cs

/-- `codeBlockRegex.FindAllStringSubmatch content -1` as (tag, body)
capture pairs. -/
def findBlocks (cs : Str) : List (Str × Str) := findBlocksGo cs.length cs

/-- Backtracking step of `^#\s+(.+)$`: `wsRev` holds the reversed
whitespace currently consumed by `\s+` (never allowed to become empty)
and `pos` the position where `(.+)` would start.  `(.+)` greedily takes
the rest of the line; it needs at least one character that is not `\n`,
otherwise `\s+` gives one character back. -/
def titleCapture : Str → Str → Option Str
  | wsRev, c :: rest =>
    if c = '\n' then
      match wsRev with
      | [] => none
      | [_] => none
      | w :: ws => titleCapture ws (w :: c :: rest)
    else some ((c :: rest).takeWhile (fun x => x ≠ '\n'))
  | wsRev, [] =>
    match wsRev with
    | [] => none
    | [_] => none
    | w :: ws => titleCapture ws [w]

/-- Try to match `#\s+(.+)$` at the current position (which the caller
guarantees to be a line start), returning the `(.+)` capture. -/
def titleAt (cs : Str) : Option Str :=
  match cs with
  | '#' :: rest =>
    let ws := rest.takeWhile isRegexSpace
    if ws.isEmpty then none
    else titleCapture ws.reverse (rest.dropWhile isRegexSpace)
  | _ => none

/-- Leftmost match of `(?m)^#\s+(.+)$`: scan positions left to right,
attempting the pattern at line starts only. -/
def findTitleGo : Str → Bool → Option Str
  | cs, atLineStart =>
    match (if atLineStart then titleAt cs else none) with
    | some t => some t
    | none =>
      match cs with
      | [] => none
      | c :: rest => findTitleGo rest (c = '\n')

/-- `titleRegex.FindStringSubmatch content` (first capture group). -/
def findTitle (cs : Str) : Option Str := findTitleGo cs true

/-- The description scan: first line that is non-empty and does not
start with `#`, trimmed. -/
def findDesc (cs : Str) : Option Str :=
  ((scanLines cs).find? (fun l => !l.isEmpty && !((str "#").isPrefixOf l))).map trimSpace

/-- `processMarkdown` from content_processor.go. -/
def processMarkdown (content filePath : Str) : Content :=
  { title := (findTitle content).getD (baseName filePath)
  , description := (findDesc content).getD (str "No description available")
  , source := filePath
  , content := content
  , codeBlocks := (findBlocks content).map (fun tb =>
      { language := if tb.1.isEmpty then str "text" else tb.1
      , code := tb.2
      , embedding := none })
  , type := str "markdown" }

/-! ## Code extraction (processCode) -/

/-- The static extension → language table from processCode. -/
def languageMap : List (Str × Str) :=
  [ (str ".go", str "go")
  , (str ".py", str "python")
  , (str ".js", str "javascript")
  , (str ".jsx", str "jsx")
  , (str ".ts", str "typescript")
  , (str ".tsx", str "tsx")
  , (str ".html", str "html")
  , (str ".css", str "css")
  , (str ".json", str "json")
  , (str ".yaml", str "yaml")
  , (str ".yml", str "yaml") ]

/-- Map lookup `languageMap[fileExt]`. -/
def lookupLang (ext : Str) : Option Str :=
  (languageMap.find? (fun kv => kv.1 == ext)).map (fun kv => kv.2)

/-- Lazy body of `(.*?)` followed by `closeDelim`, with `.` not matching
`\n`: the shortest newline-free run after which `closeDelim` matches.
Returns the body and the input after the closing delimiter. -/
def lazyBody (closeDelim : Str) : Str → Option (Str × Str)
  | [] => none
  | c :: rest =>
    if closeDelim.isPrefixOf (c :: rest) then some ([], (c :: rest).drop closeDelim.length)
    else if c = '\n' then none
    else
      match lazyBody closeDelim rest with
      | some (b, r) => some (c :: b, r)
      | none => none

/-- Leftmost match of `openDelim(.*?)closeDelim` (no `(?s)` flag), as
used for python docstrings and JS/TS block comments; returns the body
capture. -/
def findDelim (openDelim closeDelim : Str) : Str → Option Str
  | [] => none
  | c :: rest =>
    match (if openDelim.isPrefixOf (c :: rest) then
             lazyBody closeDelim ((c :: rest).drop openDelim.length)
           else none) with
    | some (b, _) => some b
    | none => findDelim openDelim closeDelim rest

/-- The Go-language comment scan: accumulate leading `//` lines (with
newline separators), skipping blank lines, stopping at the first other
line. -/
def goCommentLoop : List Str → Str → Str
  | [], acc => acc
  | l :: ls, acc =>
    if (str "//").isPrefixOf l then goCommentLoop ls (acc ++ l.drop 2 ++ ['\n'])
    else if trimSpace l = [] then goCommentLoop ls acc
    else acc

/-- Description heuristic for `.go` files. -/
def goCommentDesc (content : Str) : Str :=
  trimSpace (goCommentLoop (scanLines content) [])

/-- `processCode` from content_processor.go. -/
def processCode (content fileExt filePath : Str) : Content :=
  let language := (lookupLang fileExt).getD (str "text")
  let rawDesc :=
    if language = str "python" then
      ((findDelim (str "\"\"\"") (str "\"\"\"") content).map trimSpace).getD []
    else if language = str "go" then
      goCommentDesc content
    else if language = str "javascript" ∨ language = str "typescript" ∨
            language = str "jsx" ∨ language = str "tsx" then
      ((findDelim (str "/**") (str "*/") content).map trimSpace).getD []
    else []
  let description := if rawDesc.isEmpty then str "Code file: " ++ filePath else rawDesc
  { title := baseName filePath
  , description := description
  , source := filePath
  , content := content
  , codeBlocks := [{ language := language, code := content, embedding := none }]
  , type := str "code" }

/-! ## File selection (GetFiles)

The repository snapshot is a finite tree.  `filepath.Walk` visits each
directory's entries in lexical order; the model takes each directory's
entry list to be that listing (the visiting order affects only the order
of the returned paths, which no property below depends on).  The walk
callback receives the full path; `filepath.Rel(repoPath, path)` is `"."`
at the root and the `/`-joined child names below it. -/

/-- A filesystem entry: a file or a directory with its entries. -/
inductive FSEntry where
  | file : Str → FSEntry
  | dir : Str → List FSEntry → FSEntry

/-- The base name of an entry (`info.Name()`). -/
def nameOf : FSEntry → Str
  | .file n => n
  | .dir n _ => n

/-- The relative path of a child, as computed by `filepath.Rel`:
children of the root (whose own relative path is `"."`) get their bare
name, deeper entries get `parentRel/name`. -/
def childRel (rel name : Str) : Str :=
  if rel = str "." then name else rel ++ '/' :: name

mutual
/-- The walk callback of GetFiles on one entry.  `path` is the entry's
full path, `rel` its path relative to the repository root.  A directory
is pruned (`filepath.SkipDir`) when its base name is in `excl`, or when
`incl` is non-empty, the directory is not the root, and its relative
path has no member of `incl` as a string prefix.  A file is collected
when its full path ends with a member of `types`. -/
def walkFS (excl incl types : List Str) : FSEntry → Str → Str → List Str
  | .file _, path, _ =>
    if types.any (fun t => t.isSuffixOf path) then [path] else []
  | .dir dirName entries, path, rel =>
    if excl.contains dirName then []
    else if incl ≠ [] ∧ rel ≠ str "." ∧ ¬ incl.any (fun d => d.isPrefixOf rel) then []
    else walkChildren excl incl types entries path rel
/-- Walk the entries of a directory whose full path is `path` and whose
relative path is `rel`. -/
def walkChildren (excl incl types : List Str) : List FSEntry → Str → Str → List Str
  | [], _, _ => []
  | e :: es, path, rel =>
    walkFS excl incl types e (path ++ '/' :: nameOf e) (childRel rel (nameOf e)) ++
      walkChildren excl incl types es path rel
end

/-- `GetFiles`: walk the snapshot from the repository root (whose
relative path is `"."`). -/
def GetFiles (excl incl types : List Str) (repoPath : Str) (root : FSEntry) : List Str :=
  walkFS excl incl types root repoPath (str ".")

/-! ## Repository cloning (CloneRepo) -/

/-- Filesystem effects CloneRepo can perform, in order. -/
inductive CloneEff where
  | mkdirTemp : Str → CloneEff
  | gitClone : Str → Str → CloneEff
deriving DecidableEq

/-- Outcomes of the two effectful collaborators of CloneRepo. -/
structure CloneEnv where
  mkdirTempRes : Except Str Str
  gitCloneRes : Str → Str → Except Str Unit

/-- The allowed-host test of CloneRepo. -/
def allowedHost (url : Str) : Bool :=
  (str "https://github.com/").isPrefixOf url || (str "https://gitlab.com/").isPrefixOf url

/-- `CloneRepo` from repo_handler.go: create a temporary directory,
then validate the URL, then clone.  The first component records the
filesystem effects performed, the second is the function's return
value. -/
def CloneRepo (env : CloneEnv) (repoURL : Str) : List CloneEff × Except Str Str :=
  match env.mkdirTempRes with
  | .error e => ([], .error (str "failed to create temp directory: " ++ e))
  | .ok tempDir =>
    if !allowedHost repoURL then
      ([.mkdirTemp tempDir], .error (str "only GitHub and GitLab repositories are supported"))
    else
      match env.gitCloneRes repoURL tempDir with
      | .error e =>
        ([.mkdirTemp tempDir, .gitClone repoURL tempDir],
         .error (str "failed to clone repository: " ++ e))
      | .ok _ => ([.mkdirTemp tempDir, .gitClone repoURL tempDir], .ok tempDir)

/-! ## Embedding annotation (CreateEmbeddings)

Go passes `contents []content.Content` as a slice, so the assignments
`contents[i].CodeBlocks[j].Embedding = …` mutate the caller's backing
array in place even when the function later returns `nil, err`.  The
model therefore returns three components: the final state of the input
records, the list of inputs submitted to the embedding endpoint (in
call order), and the function's return value.  `embed` models
`client.CreateEmbeddings` and yields the response's `Data` field: a list
of embedding vectors. -/

/-- Truncation of the submitted code to the fixed 32000-character limit
(Go slices bytes; the properties below never exercise the multi-byte
distinction). -/
def truncateCode (code : Str) : Str :=
  if code.length > 32000 then code.take 32000 else code

/-- The inner loop over the code blocks of one record.  Empty blocks are
skipped; otherwise the truncated code is submitted; on a remote error
the loop stops with the remaining blocks untouched; when the response
data is non-empty its first vector is stored on the block. -/
def annotateBlocks (embed : Str → Except Str (List (List Int))) :
    List CodeBlock → List CodeBlock × List Str × Option Str
  | [] => ([], [], none)
  | b :: bs =>
    if b.code.isEmpty then
      let r := annotateBlocks embed bs
      (b :: r.1, r.2.1, r.2.2)
    else
      let input := truncateCode b.code
      match embed input with
      | .error e => (b :: bs, [input], some e)
      | .ok data =>
        let b2 := if data.length > 0 then { b with embedding := some (data.headD []) } else b
        let r := annotateBlocks embed bs
        (b2 :: r.1, input :: r.2.1, r.2.2)

/-- The outer loop over all records. -/
def annotateContents (embed : Str → Except Str (List (List Int))) :
    List Content → List Content × List Str × Option Str
  | [] => ([], [], none)
  | c :: cs =>
    let rb := annotateBlocks embed c.codeBlocks
    let c2 := { c with codeBlocks := rb.1 }
    match rb.2.2 with
    | some e => (c2 :: cs, rb.2.1, some e)
    | none =>
      let rc := annotateContents embed cs
      (c2 :: rc.1, rb.2.1 ++ rc.2.1, rc.2.2)

/-- `CreateEmbeddings` from embedding_service.go: on any remote error
the error is wrapped and propagated and the returned record list is
absent; otherwise the (annotated) records are returned. -/
def CreateEmbeddings (embed : Str → Except Str (List (List Int)))
    (contents : List Content) : List Content × List Str × Except Str (List Content) :=
  let r := annotateContents embed contents
  match r.2.2 with
  | some e => (r.1, r.2.1, .error (str "failed to create embedding: " ++ e))
  | none => (r.1, r.2.1, .ok r.1)

/-! ## Per-file processing (ProcessFile) and the generateDocs loop -/

/-- The effectful collaborators of ProcessFile: `os.ReadFile` and
`filepath.Rel repoPath`. -/
structure FileEnv where
  readFile : Str → Except Str Str
  relPath : Str → Except Str Str

/-- `ProcessFile` from content_processor.go: read the file, compute its
extension and relative path, and dispatch on the extension being exactly
`.md`. -/
def ProcessFile (env : FileEnv) (filePath : Str) : Except Str Content :=
  match env.readFile filePath with
  | .error e => .error (str "failed to read file: " ++ e)
  | .ok fileContent =>
    let fileExt := extOf filePath
    match env.relPath filePath with
    | .error e => .error (str "failed to get relative path: " ++ e)
    | .ok relP =>
      .ok (if fileExt = str ".md" then processMarkdown fileContent relP
           else processCode fileContent fileExt relP)

/-- The per-file loop of `generateDocs` in main.go: a failing file is
skipped with a warning and the loop continues.  Returns the accumulated
records and the files that were skipped with a warning, both in order. -/
def generateRecords (env : FileEnv) : List Str → List Content × List Str
  | [] => ([], [])
  | f :: fs =>
    match ProcessFile env f with
    | .ok r =>
      let rest := generateRecords env fs
      (r :: rest.1, rest.2)
    | .error _ =>
      let rest := generateRecords env fs
      (rest.1, f :: rest.2)

/-! ## Statement vocabulary -/

/-- Frame relation on code blocks: only the embedding may change, and an
empty-code block keeps even its embedding. -/
def blockFrame (b b2 : CodeBlock) : Prop :=
  b2.language = b.language ∧ b2.code = b.code ∧ (b.code = [] → b2.embedding = b.embedding)

/-- Frame relation on records: all fields except the fragments'
embeddings unchanged. -/
def contentFrame (c c2 : Content) : Prop :=
  c2.title = c.title ∧ c2.description = c.description ∧ c2.source = c.source ∧
  c2.content = c.content ∧ c2.type = c.type ∧
  List.Forall₂ blockFrame c.codeBlocks c2.codeBlocks

/-- The inputs CreateEmbeddings would submit for one record's blocks,
one per non-empty block, in order. -/
def pendingBlockInputs (bs : List CodeBlock) : List Str :=
  bs.filterMap (fun b => if b.code.isEmpty then none else some (truncateCode b.code))

/-- The inputs CreateEmbeddings would submit for a record list. -/
def pendingInputs (cs : List Content) : List Str :=
  cs.flatMap (fun c => pendingBlockInputs c.codeBlocks)

mutual
/-- All file paths of a tree, each paired with the names of the
directories it sits beneath (nearest first), for stating the exclusion
property. -/
def allFilePairs : FSEntry → Str → List Str → List (Str × List Str)
  | .file _, path, ancs => [(path, ancs)]
  | .dir n es, path, ancs => allFilePairsL es path (n :: ancs)
/-- `allFilePairs` over a directory's entries. -/
def allFilePairsL : List FSEntry → Str → List Str → List (Str × List Str)
  | [], _, _ => []
  | e :: es, path, ancs =>
    allFilePairs e (path ++ '/' :: nameOf e) ancs ++ allFilePairsL es path ancs
end

mutual
/-- No entry name anywhere in the tree contains a path separator (true
of every real directory listing). -/
def cleanNames : FSEntry → Bool
  | .file n => !n.contains '/'
  | .dir n es => !n.contains '/' && cleanNamesL es
/-- `cleanNames` over a directory's entries. -/
def cleanNamesL : List FSEntry → Bool
  | [] => true
  | e :: es => cleanNames e && cleanNamesL es
end

/-- Whether a per-file extraction result is a success. -/
def exceptOk : Except Str Content → Bool
  | .ok _ => true
  | .error _ => false

/-! ## Concrete data used by witnesses and counterexamples -/

/-- A root listing with a double-extension file, a `.xmd` file and a
`.go` file. -/
def treeSuffix : FSEntry :=
  .dir (str "r") [.file (str "archive.tar.md"), .file (str "foo.xmd"), .file (str "a.go")]

/-- A root listing with one markdown file directly in the root. -/
def treeRootFile : FSEntry := .dir (str "repo") [.file (str "a.md")]

/-- A root listing with one markdown file inside `src`. -/
def treeSrc : FSEntry := .dir (str "r") [.dir (str "src") [.file (str "b.md")]]

/-- A nested tree `a/b/x.md` for the raw-name (not path) exclusion
check. -/
def treeNested : FSEntry :=
  .dir (str "r") [.dir (str "a") [.dir (str "b") [.file (str "x.md")]]]

/-- A tree with a file beneath an excludable directory `x`. -/
def treeExcl : FSEntry := .dir (str "r") [.dir (str "x") [.file (str "a.md")]]

/-- A clone environment whose temporary-directory creation and clone
both succeed. -/
def envClone : CloneEnv := ⟨.ok (str "/tmp/llm-generator-1"), fun _ _ => .ok ()⟩

/-- An embedding endpoint that accepts the input `"A"` and fails on
everything else. -/
def embedFail : Str → Except Str (List (List Int)) :=
  fun s => if s = str "A" then .ok [[1]] else .error (str "boom")

/-- An embedding endpoint that returns a one-vector response for every
input. -/
def embedOk : Str → Except Str (List (List Int)) :=
  fun _ => .ok [[7]]

/-- One record with two non-empty blocks (the second upsets
`embedFail`) and one empty block. -/
def recsTwo : List Content :=
  [ { title := str "t", description := str "d", source := str "s", content := str "c"
    , codeBlocks := [ { language := str "go", code := str "A" }
                    , { language := str "go", code := str "B" }
                    , { language := str "go", code := str "" } ]
    , type := str "code" } ]

/-- A file environment that reads `/r/good.md` and fails on
`/r/bad.md`. -/
def envFiles : FileEnv :=
  { readFile := fun p => if p = str "/r/good.md" then .ok (str "# T\nBody.\n")
                         else .error (str "nope")
  , relPath := fun p => .ok (p.drop 3) }

/-! ## Helper lemmas about the walk -/

mutual
/-- Every path in a walk result is the entry's own path or lies below
it. -/
theorem walkFS_shape (excl incl types : List Str) (e : FSEntry) (path rel : Str) :
    ∀ f ∈ walkFS excl incl types e path rel, f = path ∨ ∃ t, f = path ++ '/' :: t := by
  match e with
  | .file n =>
    intro f hf
    rw [walkFS] at hf
    split at hf
    · exact Or.inl (List.mem_singleton.mp hf)
    · exact absurd hf (List.not_mem_nil f)
  | .dir n es =>
    intro f hf
    rw [walkFS] at hf
    split at hf
    · exact absurd hf (List.not_mem_nil f)
    · split at hf
      · exact absurd hf (List.not_mem_nil f)
      · exact Or.inr (walkChildren_shape excl incl types es path rel f hf)
/-- Every path produced by walking a directory's entries lies strictly
below the directory. -/
theorem walkChildren_shape (excl incl types : List Str) (es : List FSEntry) (path rel : Str) :
    ∀ f ∈ walkChildren excl incl types es path rel, ∃ t, f = path ++ '/' :: t := by
  match es with
  | [] =>
    intro f hf
    rw [walkChildren] at hf
    exact absurd hf (List.not_mem_nil f)
  | e :: rest =>
    intro f hf
    rw [walkChildren] at hf
    rcases List.mem_append.mp hf with hf | hf
    · rcases walkFS_shape excl incl types e (path ++ '/' :: nameOf e)
        (childRel rel (nameOf e)) f hf with h | ⟨t, ht⟩
      · exact ⟨nameOf e, h⟩
      · exact ⟨nameOf e ++ '/' :: t, by simpa using ht⟩
    · exact walkChildren_shape excl incl types rest path rel f hf
end

mutual
/-- Every collected file's full path ends in one of the configured
suffixes. -/
theorem walkFS_suffix (excl incl types : List Str) (e : FSEntry) (path rel : Str) :
    ∀ f ∈ walkFS excl incl types e path rel, ∃ tp ∈ types, tp.isSuffixOf f = true := by
  match e with
  | .file n =>
    intro f hf
    rw [walkFS] at hf
    split at hf
    next hcond =>
      rcases List.any_eq_true.mp hcond with ⟨tp, htp, hsuf⟩
      exact ⟨tp, htp, (List.mem_singleton.mp hf) ▸ hsuf⟩
    next => exact absurd hf (List.not_mem_nil f)
  | .dir n es =>
    intro f hf
    rw [walkFS] at hf
    split at hf
    · exact absurd hf (List.not_mem_nil f)
    · split at hf
      · exact absurd hf (List.not_mem_nil f)
      · exact walkChildren_suffix excl incl types es path rel f hf
/-- `walkFS_suffix` over a directory's entries. -/
theorem walkChildren_suffix (excl incl types : List Str) (es : List FSEntry) (path rel : Str) :
    ∀ f ∈ walkChildren excl incl types es path rel, ∃ tp ∈ types, tp.isSuffixOf f = true := by
  match es with
  | [] =>
    intro f hf
    rw [walkChildren] at hf
    exact absurd hf (List.not_mem_nil f)
  | e :: rest =>
    intro f hf
    rw [walkChildren] at hf
    rcases List.mem_append.mp hf with hf | hf
    · exact walkFS_suffix excl incl types e _ _ f hf
    · exact walkChildren_suffix excl incl types rest path rel f hf
end

/-! ## Claim C1 -/

/-- Claim C1 (code-bug evidence): the block pattern's `.` does not match
`\n`, so a fenced block whose body spans two lines yields no fragment at
all, while single-line bodies are extracted exactly and consecutive
blocks are not merged. -/
theorem processMarkdown_drops_multiline_bodies :
    (processMarkdown (str "```go\na\nb\n```") (str "x.md")).codeBlocks = [] ∧
    (processMarkdown (str "```go\nx\n```\n```py\ny\n```") (str "x.md")).codeBlocks =
      [ { language := str "go", code := str "x", embedding := none }
      , { language := str "py", code := str "y", embedding := none } ] := by
  exact ⟨rfl, rfl⟩

/-! ## Claim C3 -/

/-- Claim C3 counterexample: with a succeeding `os.MkdirTemp`, a
disallowed URL is rejected, yet the temporary directory has already been
created — the effect list on this error path is not empty, contradicting
the claim that the error comes before any temporary directory is
created. -/
theorem cloneRepo_tempdir_before_validation :
    allowedHost (str "http://evil.example/repo") = false ∧
    (CloneRepo envClone (str "http://evil.example/repo")).2 =
      .error (str "only GitHub and GitLab repositories are supported") ∧
    (CloneRepo envClone (str "http://evil.example/repo")).1 =
      [.mkdirTemp (str "/tmp/llm-generator-1")] := by
  exact ⟨rfl, rfl, rfl⟩

/-- Claim C3 (amended): for every URL that does not start with an
allowed hosting prefix, CloneRepo returns an error and never performs a
clone — the only filesystem effect possibly performed first is the
creation of the (still empty) temporary directory. -/
theorem cloneRepo_rejects_disallowed_url (env : CloneEnv) (url : Str)
    (h : allowedHost url = false) :
    (∃ msg, (CloneRepo env url).2 = .error msg) ∧
    (∀ eff ∈ (CloneRepo env url).1, ∃ d, eff = CloneEff.mkdirTemp d) := by
  cases henv : env.mkdirTempRes with
  | error e =>
    constructor
    · exact ⟨str "failed to create temp directory: " ++ e, by simp [CloneRepo, henv]⟩
    · intro eff heff
      simp [CloneRepo, henv] at heff
  | ok d =>
    constructor
    · exact ⟨str "only GitHub and GitLab repositories are supported",
        by simp [CloneRepo, henv, h]⟩
    · intro eff heff
      simp [CloneRepo, henv, h] at heff
      exact ⟨d, heff⟩

/-- Witness for `cloneRepo_rejects_disallowed_url`. -/
theorem cloneRepo_rejects_disallowed_url_witness :
    allowedHost (str "http://evil.example/repo") = false ∧
    ((∃ msg, (CloneRepo envClone (str "http://evil.example/repo")).2 = .error msg) ∧
     (∀ eff ∈ (CloneRepo envClone (str "http://evil.example/repo")).1,
        ∃ d, eff = CloneEff.mkdirTemp d)) :=
  ⟨by decide, cloneRepo_rejects_disallowed_url envClone _ (by decide)⟩

/-! ## Claim C4 -/

/-- Claim C4 counterexample: `.md` is not a textual suffix of
`foo.xmd` (the suffix includes the dot), so that file is neither matched
nor selected — contradicting the claim's assertion that `foo.xmd` is
matched by `.md`. -/
theorem getFiles_xmd_not_matched :
    (str "/r/foo.xmd") ∉ GetFiles [] [] [str ".md"] (str "/r") treeSuffix ∧
    (str ".md").isSuffixOf (str "/r/foo.xmd") = false := by
  exact ⟨by decide, by decide⟩

/-- Claim C4 (amended): a file is collected iff its path ends (textual
suffix, dot included) with one of the configured strings: the file
branch of the walk decides membership by that test alone, every selected
path ends with a configured suffix, and the double-extension file
`archive.tar.md` is selected when `.md` is configured while `foo.xmd`
and `a.go` are not. -/
theorem getFiles_suffix_decides
    (excl incl types : List Str) (repoPath : Str) (root : FSEntry) (f : Str)
    (hf : f ∈ GetFiles excl incl types repoPath root) :
    (∃ tp ∈ types, tp.isSuffixOf f = true) ∧
    (∀ (n : Str) (path rel : Str), walkFS excl incl types (.file n) path rel =
      if types.any (fun t => t.isSuffixOf path) then [path] else []) ∧
    GetFiles [] [] [str ".md"] (str "/r") treeSuffix = [str "/r/archive.tar.md"] := by
  refine ⟨walkFS_suffix excl incl types root repoPath (str ".") f hf, ?_, by decide⟩
  intro n path rel
  rw [walkFS]

/-- Witness for `getFiles_suffix_decides`. -/
theorem getFiles_suffix_decides_witness :
    (str "/r/archive.tar.md") ∈ GetFiles [] [] [str ".md"] (str "/r") treeSuffix ∧
    (∃ tp ∈ [str ".md"], tp.isSuffixOf (str "/r/archive.tar.md") = true) :=
  ⟨by decide,
   (getFiles_suffix_decides [] [] [str ".md"] (str "/r") treeSuffix _ (by decide)).1⟩

/-! ## Claim C6 -/

/-- Claim C6: code extraction yields exactly one fragment carrying the
entire unmodified file content, labeled by the static table lookup of
the extension, with `text` whenever the extension is not in the
table. -/
theorem processCode_single_fragment (content fileExt filePath : Str) :
    (processCode content fileExt filePath).codeBlocks =
      [ { language := (lookupLang fileExt).getD (str "text"), code := content
        , embedding := none } ] ∧
    (lookupLang fileExt = none →
      (processCode content fileExt filePath).codeBlocks =
        [ { language := str "text", code := content, embedding := none } ]) := by
  refine ⟨rfl, fun h => ?_⟩
  simp [processCode, h]

/-- Witness for `processCode_single_fragment`. -/
theorem processCode_single_fragment_witness :
    lookupLang (str ".zzz") = none ∧
    (processCode (str "w") (str ".zzz") (str "a.zzz")).codeBlocks =
      [ { language := str "text", code := str "w", embedding := none } ] :=
  ⟨by decide, (processCode_single_fragment (str "w") (str ".zzz") (str "a.zzz")).2 (by decide)⟩

/-! ## Claim C2 counterexample -/

/-- Claim C2 counterexample: with non-empty `includeDirs = ["src"]`, the
file `a.md` directly in the repository root is selected even though its
relative path `a.md` does not start with `src` — the include filter is
applied to directories only. -/
theorem getFiles_root_file_bypasses_include :
    (str "/r/a.md") ∈ GetFiles [] [str "src"] [str ".md"] (str "/r") treeRootFile ∧
    (str "/r/a.md") = (str "/r") ++ '/' :: (str "a.md") ∧
    (∀ d ∈ [str "src"], d.isPrefixOf (str "a.md") = false) := by
  exact ⟨by decide, by decide, by decide⟩

/-! ## Claim C7 counterexample -/

/-- Claim C7 counterexample: the first block's embedding succeeds and is
stored in the caller's records before the second block's embedding
fails, so on the error path the input records do carry an embedding that
was not present before the call. -/
theorem createEmbeddings_partial_on_error :
    (CreateEmbeddings embedFail recsTwo).2.2 =
      .error (str "failed to create embedding: boom") ∧
    recsTwo.map (fun c => c.codeBlocks.map (fun b => b.embedding)) =
      [[none, none, none]] ∧
    (CreateEmbeddings embedFail recsTwo).1.map
        (fun c => c.codeBlocks.map (fun b => b.embedding)) =
      [[some [1], none, none]] := by
  exact ⟨rfl, rfl, rfl⟩

/-! ## Helper lemmas about the annotation loops -/

/-- `blockFrame` is reflexive. -/
theorem blockFrame_refl (b : CodeBlock) : blockFrame b b :=
  ⟨rfl, rfl, fun _ => rfl⟩

/-- `contentFrame` is reflexive. -/
theorem contentFrame_refl (c : Content) : contentFrame c c :=
  ⟨rfl, rfl, rfl, rfl, rfl, List.forall₂_same.mpr (fun b _ => blockFrame_refl b)⟩

/-- The block loop only ever changes embedding fields, and leaves
empty-code blocks entirely alone. -/
theorem annotateBlocks_frame (embed : Str → Except Str (List (List Int)))
    (bs : List CodeBlock) : List.Forall₂ blockFrame bs (annotateBlocks embed bs).1 := by
  induction bs with
  | nil => exact List.Forall₂.nil
  | cons b rest ih =>
    by_cases hb : b.code.isEmpty
    · simpa [annotateBlocks, hb] using List.Forall₂.cons (blockFrame_refl b) ih
    · cases hemb : embed (truncateCode b.code) with
      | error e =>
        simpa [annotateBlocks, hb, hemb] using
          List.Forall₂.cons (blockFrame_refl b)
            (List.forall₂_same.mpr (fun x _ => blockFrame_refl x))
      | ok data =>
        have hframe : blockFrame b
            (if data.length > 0 then { b with embedding := some (data.headD []) } else b) := by
          split
          · exact ⟨rfl, rfl, fun hempty => by simp [hempty, List.isEmpty_iff] at hb⟩
          · exact blockFrame_refl b
        simpa [annotateBlocks, hb, hemb] using List.Forall₂.cons hframe ih

/-- `pendingBlockInputs` skips an empty-code block. -/
theorem pendingBlockInputs_cons_empty (b : CodeBlock) (bs : List CodeBlock)
    (hb : b.code.isEmpty = true) :
    pendingBlockInputs (b :: bs) = pendingBlockInputs bs := by
  simp [pendingBlockInputs, List.filterMap_cons, List.isEmpty_iff.mp hb]

/-- `pendingBlockInputs` submits a non-empty block once. -/
theorem pendingBlockInputs_cons_ne (b : CodeBlock) (bs : List CodeBlock)
    (hb : ¬ b.code.isEmpty = true) :
    pendingBlockInputs (b :: bs) = truncateCode b.code :: pendingBlockInputs bs := by
  have hb2 : ¬ (b.code = []) := by simpa [List.isEmpty_iff] using hb
  simp [pendingBlockInputs, List.filterMap_cons, hb2]

/-- `pendingInputs` is record-by-record. -/
theorem pendingInputs_cons (c : Content) (cs : List Content) :
    pendingInputs (c :: cs) = pendingBlockInputs c.codeBlocks ++ pendingInputs cs := by
  simp [pendingInputs]

/-- The block loop submits a prefix of the one-per-non-empty-block input
list, in order. -/
theorem annotateBlocks_trace_pre (embed : Str → Except Str (List (List Int)))
    (bs : List CodeBlock) :
    ∃ t, (annotateBlocks embed bs).2.1 ++ t = pendingBlockInputs bs := by
  induction bs with
  | nil => exact ⟨[], rfl⟩
  | cons b rest ih =>
    by_cases hb : b.code.isEmpty
    · obtain ⟨t, ht⟩ := ih
      rw [pendingBlockInputs_cons_empty b rest hb]
      exact ⟨t, by simpa [annotateBlocks, hb] using ht⟩
    · rw [pendingBlockInputs_cons_ne b rest hb]
      cases hemb : embed (truncateCode b.code) with
      | error e =>
        exact ⟨pendingBlockInputs rest, by simp [annotateBlocks, hb, hemb]⟩
      | ok data =>
        obtain ⟨t, ht⟩ := ih
        refine ⟨t, ?_⟩
        simp only [annotateBlocks, hb, hemb]
        simpa using ht

/-- When the block loop finishes without an error it has submitted
exactly one input per non-empty block. -/
theorem annotateBlocks_trace_complete (embed : Str → Except Str (List (List Int)))
    (bs : List CodeBlock) (h : (annotateBlocks embed bs).2.2 = none) :
    (annotateBlocks embed bs).2.1 = pendingBlockInputs bs := by
  induction bs with
  | nil => rfl
  | cons b rest ih =>
    by_cases hb : b.code.isEmpty
    · rw [pendingBlockInputs_cons_empty b rest hb]
      simp only [annotateBlocks, hb, if_pos] at h ⊢
      exact ih h
    · rw [pendingBlockInputs_cons_ne b rest hb]
      cases hemb : embed (truncateCode b.code) with
      | error e => simp [annotateBlocks, hb, hemb] at h
      | ok data =>
        simp only [annotateBlocks, hb, hemb, if_neg] at h ⊢
        simpa using ih h

/-- The record loop only ever changes embedding fields. -/
theorem annotateContents_frame (embed : Str → Except Str (List (List Int)))
    (cs : List Content) : List.Forall₂ contentFrame cs (annotateContents embed cs).1 := by
  induction cs with
  | nil => exact List.Forall₂.nil
  | cons c rest ih =>
    have hc : contentFrame c { c with codeBlocks := (annotateBlocks embed c.codeBlocks).1 } :=
      ⟨rfl, rfl, rfl, rfl, rfl, annotateBlocks_frame embed c.codeBlocks⟩
    cases herr : (annotateBlocks embed c.codeBlocks).2.2 with
    | some e =>
      simpa [annotateContents, herr] using
        List.Forall₂.cons hc (List.forall₂_same.mpr (fun x _ => contentFrame_refl x))
    | none =>
      simpa [annotateContents, herr] using List.Forall₂.cons hc ih

/-- The record loop submits a prefix of the one-per-non-empty-fragment
input list, in order. -/
theorem annotateContents_trace_pre (embed : Str → Except Str (List (List Int)))
    (cs : List Content) :
    ∃ t, (annotateContents embed cs).2.1 ++ t = pendingInputs cs := by
  induction cs with
  | nil => exact ⟨[], rfl⟩
  | cons c rest ih =>
    rw [pendingInputs_cons]
    cases herr : (annotateBlocks embed c.codeBlocks).2.2 with
    | some e =>
      obtain ⟨t, ht⟩ := annotateBlocks_trace_pre embed c.codeBlocks
      refine ⟨t ++ pendingInputs rest, ?_⟩
      simp only [annotateContents, herr]
      rw [← List.append_assoc, ht]
    | none =>
      obtain ⟨t, ht⟩ := ih
      refine ⟨t, ?_⟩
      simp only [annotateContents, herr]
      rw [annotateBlocks_trace_complete embed c.codeBlocks herr, List.append_assoc, ht]

/-- The final record state of CreateEmbeddings is the state left by the
annotation loop, on both the success and the error path. -/
theorem createEmbeddings_state (embed : Str → Except Str (List (List Int)))
    (cs : List Content) :
    (CreateEmbeddings embed cs).1 = (annotateContents embed cs).1 ∧
    (CreateEmbeddings embed cs).2.1 = (annotateContents embed cs).2.1 := by
  cases herr : (annotateContents embed cs).2.2 <;> simp [CreateEmbeddings, herr]

/-! ## Claim C7 (amended) -/

/-- Claim C7 (amended): on a failing embedding call the whole batch is
aborted with a propagated error; each non-empty fragment was submitted
at most once, in order, and nothing beyond the failing fragment was
submitted (the submission trace is a prefix of the one-per-fragment
list); the records may retain embeddings attached before the failure,
but nothing besides fragment embedding fields differs from the pre-call
state. -/
theorem createEmbeddings_error_frame (embed : Str → Except Str (List (List Int)))
    (cs : List Content) (e : Str)
    (h : (CreateEmbeddings embed cs).2.2 = .error e) :
    List.Forall₂ contentFrame cs (CreateEmbeddings embed cs).1 ∧
    (∃ t, (CreateEmbeddings embed cs).2.1 ++ t = pendingInputs cs) := by
  obtain ⟨h1, h2⟩ := createEmbeddings_state embed cs
  rw [h1, h2]
  exact ⟨annotateContents_frame embed cs, annotateContents_trace_pre embed cs⟩

/-- Witness for `createEmbeddings_error_frame`. -/
theorem createEmbeddings_error_frame_witness :
    (CreateEmbeddings embedFail recsTwo).2.2 =
      .error (str "failed to create embedding: boom") ∧
    (List.Forall₂ contentFrame recsTwo (CreateEmbeddings embedFail recsTwo).1 ∧
     (∃ t, (CreateEmbeddings embedFail recsTwo).2.1 ++ t = pendingInputs recsTwo)) :=
  ⟨rfl, createEmbeddings_error_frame embedFail recsTwo _ rfl⟩

/-! ## Claim C8 -/

/-- Claim C8: on success CreateEmbeddings returns the records in the
same count and order, changes nothing besides fragment embedding
fields, and an empty-code fragment keeps even its embedding (in
particular an absent embedding stays absent). -/
theorem createEmbeddings_success_frame (embed : Str → Except Str (List (List Int)))
    (cs fin : List Content) (tr : List Str) (res : List Content)
    (h : CreateEmbeddings embed cs = (fin, tr, .ok res)) :
    res = fin ∧ fin.length = cs.length ∧ List.Forall₂ contentFrame cs fin := by
  have hstate := createEmbeddings_state embed cs
  cases herr : (annotateContents embed cs).2.2 with
  | some e =>
    have hbad : (CreateEmbeddings embed cs).2.2 =
        .error (str "failed to create embedding: " ++ e) := by
      simp [CreateEmbeddings, herr]
    rw [h] at hbad
    simp at hbad
  | none =>
    have hres : (CreateEmbeddings embed cs).2.2 = .ok (annotateContents embed cs).1 := by
      simp [CreateEmbeddings, herr]
    rw [h] at hres hstate
    simp only at hres hstate
    have hres' : res = (annotateContents embed cs).1 := by simpa using hres
    have hfin : fin = (annotateContents embed cs).1 := hstate.1
    refine ⟨hres'.trans hfin.symm, ?_, hfin ▸ annotateContents_frame embed cs⟩
    rw [hfin]
    exact (annotateContents_frame embed cs).length_eq.symm

/-- Witness for `createEmbeddings_success_frame`. -/
theorem createEmbeddings_success_frame_witness :
    CreateEmbeddings embedOk recsTwo =
      ((CreateEmbeddings embedOk recsTwo).1, (CreateEmbeddings embedOk recsTwo).2.1,
        .ok (CreateEmbeddings embedOk recsTwo).1) ∧
    ((CreateEmbeddings embedOk recsTwo).1 = (CreateEmbeddings embedOk recsTwo).1 ∧
     (CreateEmbeddings embedOk recsTwo).1.length = recsTwo.length ∧
     List.Forall₂ contentFrame recsTwo (CreateEmbeddings embedOk recsTwo).1) :=
  ⟨rfl, createEmbeddings_success_frame embedOk recsTwo _ _ _ rfl⟩

/-! ## Claim C9 -/

/-- Claim C9: ProcessFile fails only outright, for a read error or a
relative-path error; the generateDocs loop skips each failing file with
a warning and keeps exactly one record per succeeding file, in selection
order. -/
theorem generateRecords_skip_failures (env : FileEnv) (files : List Str) :
    List.Forall₂ (fun f r => ProcessFile env f = .ok r)
      (files.filter (fun f => exceptOk (ProcessFile env f)))
      (generateRecords env files).1 ∧
    (generateRecords env files).2 =
      files.filter (fun f => !exceptOk (ProcessFile env f)) ∧
    (∀ f e, ProcessFile env f = .error e →
      (∃ er, env.readFile f = .error er) ∨ (∃ er, env.relPath f = .error er)) := by
  refine ⟨?_, ?_, ?_⟩
  · induction files with
    | nil => exact List.Forall₂.nil
    | cons f fs ih =>
      cases hp : ProcessFile env f with
      | ok r =>
        have hfil : (f :: fs).filter (fun f => exceptOk (ProcessFile env f)) =
            f :: fs.filter (fun f => exceptOk (ProcessFile env f)) := by
          simp [List.filter_cons, hp, exceptOk]
        rw [hfil]
        simp only [generateRecords, hp]
        exact List.Forall₂.cons hp ih
      | error e =>
        have hfil : (f :: fs).filter (fun f => exceptOk (ProcessFile env f)) =
            fs.filter (fun f => exceptOk (ProcessFile env f)) := by
          simp [List.filter_cons, hp, exceptOk]
        rw [hfil]
        simp only [generateRecords, hp]
        exact ih
  · induction files with
    | nil => rfl
    | cons f fs ih =>
      cases hp : ProcessFile env f with
      | ok r =>
        have hfil : (f :: fs).filter (fun f => !exceptOk (ProcessFile env f)) =
            fs.filter (fun f => !exceptOk (ProcessFile env f)) := by
          simp [List.filter_cons, hp, exceptOk]
        rw [hfil]
        simp only [generateRecords, hp]
        exact ih
      | error e =>
        have hfil : (f :: fs).filter (fun f => !exceptOk (ProcessFile env f)) =
            f :: fs.filter (fun f => !exceptOk (ProcessFile env f)) := by
          simp [List.filter_cons, hp, exceptOk]
        rw [hfil]
        simp only [generateRecords, hp]
        simpa using ih
  · intro f e h
    unfold ProcessFile at h
    cases hr : env.readFile f with
    | error er => exact Or.inl ⟨er, rfl⟩
    | ok content =>
      rw [hr] at h
      cases hrel : env.relPath f with
      | error er => exact Or.inr ⟨er, rfl⟩
      | ok relP => rw [hrel] at h; simp at h

/-- Witness for `generateRecords_skip_failures`. -/
theorem generateRecords_skip_failures_witness :
    ProcessFile envFiles (str "/r/bad.md") = .error (str "failed to read file: nope") ∧
    ((∃ er, envFiles.readFile (str "/r/bad.md") = .error er) ∨
     (∃ er, envFiles.relPath (str "/r/bad.md") = .error er)) :=
  ⟨rfl, (generateRecords_skip_failures envFiles
    [str "/r/good.md", str "/r/bad.md"]).2.2 _ _ rfl⟩

/-! ## Claim C2 (amended) -/

/-- A file collected below a root child sits below the repository root;
if its relative path crosses a directory level, that directory passed
the include-prefix test, and the prefix extends to the whole relative
path. -/
theorem walkChildren_root_include (excl incl types : List Str) (hincl : incl ≠ [])
    (path : Str) :
    ∀ (es : List FSEntry), (∀ e ∈ es, '/' ∉ nameOf e ∧ nameOf e ≠ str ".") →
    ∀ f ∈ walkChildren excl incl types es path (str "."),
    ∃ rel, f = path ++ '/' :: rel ∧
      ('/' ∈ rel → ∃ d ∈ incl, d.isPrefixOf rel = true) := by
  intro es
  induction es with
  | nil =>
    intro _ f hf
    rw [walkChildren] at hf
    exact absurd hf (List.not_mem_nil f)
  | cons e rest ih =>
    intro hnames f hf
    rw [walkChildren] at hf
    rcases List.mem_append.mp hf with hf | hf
    · have hcr : childRel (str ".") (nameOf e) = nameOf e := by simp [childRel]
      rw [hcr] at hf
      cases e with
      | file n =>
        rw [walkFS] at hf
        split at hf
        · have hfp : f = path ++ '/' :: nameOf (.file n) := List.mem_singleton.mp hf
          refine ⟨nameOf (.file n), hfp, fun hslash => ?_⟩
          exact absurd hslash (hnames _ (by simp)).1
        · exact absurd hf (List.not_mem_nil f)
      | dir n es2 =>
        rw [walkFS] at hf
        split at hf
        · exact absurd hf (List.not_mem_nil f)
        · split at hf
          next => exact absurd hf (List.not_mem_nil f)
          next hcond =>
            have hne : nameOf (.dir n es2) ≠ str "." := (hnames _ (by simp)).2
            have hany : incl.any (fun d => d.isPrefixOf (nameOf (.dir n es2))) = true := by
              by_contra hnotany
              exact hcond ⟨hincl, hne, by simpa using hnotany⟩
            obtain ⟨d, hd, hdp⟩ := List.any_eq_true.mp hany
            obtain ⟨t, ht⟩ := walkChildren_shape excl incl types es2
              (path ++ '/' :: nameOf (.dir n es2)) (nameOf (.dir n es2)) f hf
            refine ⟨nameOf (.dir n es2) ++ '/' :: t, by simpa using ht, fun _ => ⟨d, hd, ?_⟩⟩
            have h1 := List.isPrefixOf_iff_prefix.mp hdp
            exact List.isPrefixOf_iff_prefix.mpr
              (h1.trans (List.prefix_append (nameOf (.dir n es2)) ('/' :: t)))
    · exact ih (fun e2 he2 => hnames e2 (List.mem_cons_of_mem _ he2)) f hf

/-- Claim C2 (amended): with a non-empty `includeDirs`, a selected file
lying inside a subdirectory (its relative path crosses a `/`) has a
relative path starting with one of the include entries; a file directly
in the repository root is selected without any include test (the test
sits in the directory branch only), as `getFiles_root_file_bypasses_include`
shows concretely. -/
theorem getFiles_include_filter
    (excl incl types : List Str) (rootName : Str) (entries : List FSEntry)
    (repoPath f : Str)
    (hincl : incl ≠ [])
    (hnames : ∀ e ∈ entries, '/' ∉ nameOf e ∧ nameOf e ≠ str ".")
    (hf : f ∈ GetFiles excl incl types repoPath (.dir rootName entries)) :
    ∃ rel, f = repoPath ++ '/' :: rel ∧
      ('/' ∈ rel → ∃ d ∈ incl, d.isPrefixOf rel = true) := by
  unfold GetFiles at hf
  rw [walkFS] at hf
  split at hf
  · exact absurd hf (List.not_mem_nil f)
  · split at hf
    · exact absurd hf (List.not_mem_nil f)
    · exact walkChildren_root_include excl incl types hincl repoPath entries hnames f hf

/-- Witness for `getFiles_include_filter`. -/
theorem getFiles_include_filter_witness :
    (([str "src"] : List Str) ≠ [] ∧
     (∀ e ∈ [FSEntry.dir (str "src") [FSEntry.file (str "b.md")]],
        '/' ∉ nameOf e ∧ nameOf e ≠ str ".") ∧
     (str "/r/src/b.md") ∈ GetFiles [] [str "src"] [str ".md"] (str "/r") treeSrc) ∧
    (∃ rel, str "/r/src/b.md" = (str "/r") ++ '/' :: rel ∧
      ('/' ∈ rel → ∃ d ∈ [str "src"], d.isPrefixOf rel = true)) :=
  ⟨⟨by decide, by decide, by decide⟩,
   getFiles_include_filter [] [str "src"] [str ".md"] (str "r")
     [FSEntry.dir (str "src") [FSEntry.file (str "b.md")]] (str "/r") (str "/r/src/b.md")
     (by decide) (by decide) (by decide)⟩

/-! ## Segment lemmas for relative paths -/

/-- A split is never the empty list of pieces. -/
theorem splitOnChar_ne_nil (sep : Char) (l : Str) : splitOnChar sep l ≠ [] := by
  cases l with
  | nil => simp [splitOnChar]
  | cons c rest =>
    cases h : splitOnChar sep rest with
    | nil => simp [splitOnChar, h]
    | cons p ps =>
      simp only [splitOnChar, h]
      split <;> simp

/-- A separator-free string is a single segment. -/
theorem splitOnChar_no_sep (sep : Char) (m : Str) (hm : ∀ c ∈ m, c ≠ sep) :
    splitOnChar sep m = [m] := by
  induction m with
  | nil => rfl
  | cons c rest ih =>
    have hc : c ≠ sep := hm c (by simp)
    have := ih (fun c hcm => hm c (List.mem_cons_of_mem _ hcm))
    simp [splitOnChar, this, hc]

/-- Splitting after a separator-free first segment peels it off. -/
theorem splitOnChar_append (sep : Char) (m t : Str) (hm : ∀ c ∈ m, c ≠ sep) :
    splitOnChar sep (m ++ sep :: t) = m :: splitOnChar sep t := by
  induction m with
  | nil =>
    cases h : splitOnChar sep t with
    | nil => exact absurd h (splitOnChar_ne_nil sep t)
    | cons p ps => simp [splitOnChar, h]
  | cons c rest ih =>
    have hc : c ≠ sep := hm c (by simp)
    have h2 := ih (fun c hcm => hm c (List.mem_cons_of_mem _ hcm))
    simp only [List.cons_append, splitOnChar, List.append_eq]
    rw [h2]
    simp [hc]

/-- `dropLast` over a guaranteed-nonempty tail. -/
theorem dropLast_cons_ne (a : Str) (l : List Str) (hl : l ≠ []) :
    (a :: l).dropLast = a :: l.dropLast := by
  cases l with
  | nil => exact absurd rfl hl
  | cons b t => rfl

/-- Unfolding `cleanNames` at a file. -/
theorem cleanNames_file (n : Str) (h : cleanNames (.file n) = true) : '/' ∉ n := by
  simpa [cleanNames] using h

/-- Unfolding `cleanNames` at a directory. -/
theorem cleanNames_dir (n : Str) (es : List FSEntry) (h : cleanNames (.dir n es) = true) :
    '/' ∉ n ∧ cleanNamesL es = true := by
  simpa [cleanNames] using h

/-- Unfolding `cleanNamesL` at a cons. -/
theorem cleanNamesL_cons (e : FSEntry) (es : List FSEntry)
    (h : cleanNamesL (e :: es) = true) : cleanNames e = true ∧ cleanNamesL es = true := by
  simpa [cleanNamesL] using h

/-- An entry of a clean tree has a separator-free name. -/
theorem nameOf_sep_free (e : FSEntry) (h : cleanNames e = true) :
    ∀ c ∈ nameOf e, c ≠ '/' := by
  cases e with
  | file n =>
    intro c hc hceq
    exact (cleanNames_file n h) (hceq ▸ hc)
  | dir n es =>
    intro c hc hceq
    exact (cleanNames_dir n es h).1 (hceq ▸ hc)

/-! ## Decomposition of `allFilePairs` -/

mutual
/-- Where a pair of `allFilePairs` can come from, per entry kind. -/
theorem allFilePairs_decomp (e : FSEntry) :
    ∀ (path : Str) (a0 : List Str) (f : Str) (ancs : List Str),
    cleanNames e = true → (f, ancs) ∈ allFilePairs e path a0 →
    (f = path ∧ ancs = a0 ∧ ∃ n, e = .file n) ∨
    (∃ n es t, e = .dir n es ∧ f = path ++ '/' :: t ∧
      ancs = ((splitOnChar '/' t).dropLast).reverse ++ n :: a0) := by
  match e with
  | .file n =>
    intro path a0 f ancs _ hp
    rw [allFilePairs] at hp
    have := List.mem_singleton.mp hp
    exact Or.inl ⟨congrArg Prod.fst this, congrArg Prod.snd this, n, rfl⟩
  | .dir n es =>
    intro path a0 f ancs hc hp
    rw [allFilePairs] at hp
    have hcl : cleanNamesL es = true := by
      rw [cleanNames] at hc
      exact (Bool.and_eq_true _ _ |>.mp hc).2
    obtain ⟨t, hft, hancs⟩ := allFilePairsL_decomp es path (n :: a0) f ancs hcl hp
    exact Or.inr ⟨n, es, t, rfl, hft, hancs⟩
/-- Where a pair of `allFilePairsL` can come from: the file sits below
`path`, and its ancestors are the reversed non-final segments of its
relative path, then the outer ancestors. -/
theorem allFilePairsL_decomp (es : List FSEntry) :
    ∀ (path : Str) (a0 : List Str) (f : Str) (ancs : List Str),
    cleanNamesL es = true → (f, ancs) ∈ allFilePairsL es path a0 →
    ∃ t, f = path ++ '/' :: t ∧
      ancs = ((splitOnChar '/' t).dropLast).reverse ++ a0 := by
  match es with
  | [] =>
    intro path a0 f ancs _ hp
    rw [allFilePairsL] at hp
    exact absurd hp (List.not_mem_nil _)
  | e :: rest =>
    intro path a0 f ancs hc hp
    rw [allFilePairsL] at hp
    have hce : cleanNames e = true := by
      rw [cleanNamesL] at hc
      exact (Bool.and_eq_true _ _ |>.mp hc).1
    have hcr : cleanNamesL rest = true := by
      rw [cleanNamesL] at hc
      exact (Bool.and_eq_true _ _ |>.mp hc).2
    rcases List.mem_append.mp hp with hp | hp
    · rcases allFilePairs_decomp e (path ++ '/' :: nameOf e) a0 f ancs hce hp with
        ⟨hf, hancs, n, he⟩ | ⟨n, es2, t2, he, hf, hancs⟩
      · refine ⟨nameOf e, hf, ?_⟩
        rw [splitOnChar_no_sep '/' (nameOf e) (nameOf_sep_free e hce)]
        simpa using hancs
      · refine ⟨nameOf e ++ '/' :: t2, by simpa using hf, ?_⟩
        rw [splitOnChar_append '/' (nameOf e) t2 (nameOf_sep_free e hce),
          dropLast_cons_ne _ _ (splitOnChar_ne_nil '/' t2)]
        subst he
        simp only [nameOf] at hancs ⊢
        rw [hancs]
        simp
    · obtain ⟨t, hft, hancs⟩ := allFilePairsL_decomp rest path a0 f ancs hcr hp
      exact ⟨t, hft, hancs⟩
end

/-! ## No excluded name on the directory part of a collected path -/

mutual
/-- A collected file's relative path below an entry's own directory
never crosses an excluded directory name. -/
theorem walkFS_clean (excl incl types : List Str) (e : FSEntry) :
    ∀ (path rel : Str) (f : Str), cleanNames e = true →
    f ∈ walkFS excl incl types e path rel →
    ∀ t, f = path ++ '/' :: t → ∀ s ∈ ((splitOnChar '/' t).dropLast), s ∉ excl := by
  match e with
  | .file n =>
    intro path rel f _ hf t ht
    rw [walkFS] at hf
    split at hf
    · have hfp : f = path := List.mem_singleton.mp hf
      have h2 : path ++ ([] : Str) = path ++ '/' :: t := by
        rw [List.append_nil, ← ht, hfp]
      have := List.append_cancel_left h2
      simp at this
    · exact absurd hf (List.not_mem_nil f)
  | .dir n es =>
    intro path rel f hc hf t ht
    rw [walkFS] at hf
    split at hf
    · exact absurd hf (List.not_mem_nil f)
    · split at hf
      · exact absurd hf (List.not_mem_nil f)
      · have hcl : cleanNamesL es = true := by
          rw [cleanNames] at hc
          exact (Bool.and_eq_true _ _ |>.mp hc).2
        exact walkChildren_clean excl incl types es path rel f hcl hf t ht
/-- `walkFS_clean` over a directory's entries. -/
theorem walkChildren_clean (excl incl types : List Str) (es : List FSEntry) :
    ∀ (path rel : Str) (f : Str), cleanNamesL es = true →
    f ∈ walkChildren excl incl types es path rel →
    ∀ t, f = path ++ '/' :: t → ∀ s ∈ ((splitOnChar '/' t).dropLast), s ∉ excl := by
  match es with
  | [] =>
    intro path rel f _ hf
    rw [walkChildren] at hf
    exact absurd hf (List.not_mem_nil f)
  | e :: rest =>
    intro path rel f hc hf t ht
    have hce : cleanNames e = true := by
      rw [cleanNamesL] at hc
      exact (Bool.and_eq_true _ _ |>.mp hc).1
    have hcr : cleanNamesL rest = true := by
      rw [cleanNamesL] at hc
      exact (Bool.and_eq_true _ _ |>.mp hc).2
    rw [walkChildren] at hf
    rcases List.mem_append.mp hf with hf | hf
    · cases e with
      | file m =>
        rw [walkFS] at hf
        split at hf
        · have hfp : f = path ++ '/' :: nameOf (.file m) := List.mem_singleton.mp hf
          have hmt : nameOf (.file m) = t := by
            have := List.append_cancel_left (hfp.symm.trans ht)
            exact (List.cons.injEq .. ▸ this).2
          rw [← hmt, splitOnChar_no_sep '/' (nameOf (.file m)) (nameOf_sep_free _ hce)]
          simp
        · exact absurd hf (List.not_mem_nil f)
      | dir m es2 =>
        have hf0 : f ∈ walkFS excl incl types (.dir m es2)
            (path ++ '/' :: nameOf (.dir m es2)) (childRel rel (nameOf (.dir m es2))) := hf
        rw [walkFS] at hf
        split at hf
        next hex => exact absurd hf (List.not_mem_nil f)
        next hex =>
          have hmex : nameOf (.dir m es2) ∉ excl := by
            intro hmem
            exact hex (by simpa using hmem)
          split at hf
          · exact absurd hf (List.not_mem_nil f)
          · obtain ⟨t2, ht2⟩ := walkChildren_shape excl incl types es2
              (path ++ '/' :: nameOf (.dir m es2)) (childRel rel (nameOf (.dir m es2))) f hf
            have hmt : t = nameOf (.dir m es2) ++ '/' :: t2 := by
              have h2 : path ++ '/' :: t =
                  path ++ '/' :: (nameOf (.dir m es2) ++ '/' :: t2) := by
                rw [← ht, ht2]; simp
              have := List.append_cancel_left h2
              exact (List.cons.injEq .. ▸ this).2
            intro s hs
            rw [hmt, splitOnChar_append '/' (nameOf (.dir m es2)) t2 (nameOf_sep_free _ hce),
              dropLast_cons_ne _ _ (splitOnChar_ne_nil '/' t2)] at hs
            rcases List.mem_cons.mp hs with hs | hs
            · exact hs ▸ hmex
            · exact walkFS_clean excl incl types (.dir m es2)
                (path ++ '/' :: nameOf (.dir m es2)) (childRel rel (nameOf (.dir m es2)))
                f hce hf0 t2 ht2 s hs
    · exact walkChildren_clean excl incl types rest path rel f hcr hf t ht
end

/-! ## Claim C5 -/

/-- Claim C5: in a tree with ordinary (separator-free) entry names, a
file beneath a directory whose base name is in `excludeDirs` — at any
nesting depth — is absent from the GetFiles result; and the check is a
raw base-name match, not a path-prefix match: the entry `a/b` in
`excludeDirs` does not prune the directory `b` below `a`. -/
theorem getFiles_exclude_removes_subtree :
    (∀ (excl incl types : List Str) (rootName : Str) (entries : List FSEntry)
       (repoPath f : Str) (ancs : List Str),
      cleanNames (.dir rootName entries) = true →
      (f, ancs) ∈ allFilePairs (.dir rootName entries) repoPath [] →
      (∃ a ∈ ancs, a ∈ excl) →
      f ∉ GetFiles excl incl types repoPath (.dir rootName entries)) ∧
    GetFiles [str "a/b"] [] [str ".md"] (str "/r") treeNested = [str "/r/a/b/x.md"] := by
  constructor
  · intro excl incl types rootName entries repoPath f ancs hclean hpair hdirty hmem
    obtain ⟨a, hamem, hax⟩ := hdirty
    unfold GetFiles at hmem
    rw [walkFS] at hmem
    split at hmem
    · exact absurd hmem (List.not_mem_nil f)
    next hnc =>
      split at hmem
      · exact absurd hmem (List.not_mem_nil f)
      · rw [allFilePairs] at hpair
        have hcl : cleanNamesL entries = true := (cleanNames_dir _ _ hclean).2
        obtain ⟨t, hft, hancs⟩ := allFilePairsL_decomp entries repoPath [rootName] f ancs
          hcl hpair
        rw [hancs] at hamem
        rcases List.mem_append.mp hamem with hrev | hroot
        · have hseg : a ∈ ((splitOnChar '/' t).dropLast) := List.mem_reverse.mp hrev
          exact walkChildren_clean excl incl types entries repoPath (str ".") f hcl
            hmem t hft a hseg hax
        · have haroot : a = rootName := by simpa using hroot
          exact hnc (by simpa using haroot ▸ hax)
  · decide

/-- Witness for `getFiles_exclude_removes_subtree`. -/
theorem getFiles_exclude_removes_subtree_witness :
    (cleanNames treeExcl = true ∧
     (str "/r/x/a.md", [str "x", str "r"]) ∈ allFilePairs treeExcl (str "/r") [] ∧
     (∃ a ∈ [str "x", str "r"], a ∈ [str "x"])) ∧
    str "/r/x/a.md" ∉ GetFiles [str "x"] [] [str ".md"] (str "/r") treeExcl :=
  ⟨⟨by decide, by decide, by decide⟩,
   getFiles_exclude_removes_subtree.1 [str "x"] [] [str ".md"] (str "r")
     [FSEntry.dir (str "x") [FSEntry.file (str "a.md")]] (str "/r") (str "/r/x/a.md")
     [str "x", str "r"] (by decide) (by decide) (by decide)⟩

/-! ## What a successful block match looks like -/

/-- A successful `matchBlockAt` decomposes the input exactly as
`` ```tag\nbody\n``` `` followed by the leftover, with a word-only tag
and a newline-free single-line body. -/
theorem matchBlockAt_decomp (cs tag body rest : Str)
    (h : matchBlockAt cs = some (tag, body, rest)) :
    cs = fence ++ tag ++ '\n' :: body ++ '\n' :: fence ++ rest ∧
    (∀ c ∈ tag, isWordChar c = true) ∧ (∀ c ∈ body, c ≠ '\n') := by
  simp only [matchBlockAt] at h
  split at h
  case isFalse => exact absurd h (by simp)
  case isTrue hp =>
    split at h
    case h_2 => exact absurd h (by simp)
    case h_1 afterNl heq =>
      split at h
      case h_2 => exact absurd h (by simp)
      case h_1 afterBody heq2 =>
        split at h
        case isFalse => exact absurd h (by simp)
        case isTrue hp2 =>
          obtain ⟨htag, hbody, hrest⟩ : (cs.drop 3).takeWhile isWordChar = tag ∧
              afterNl.takeWhile (fun c => c ≠ '\n') = body ∧ afterBody.drop 3 = rest := by
            simpa using h
          have hcs : cs = fence ++ cs.drop 3 := by
            obtain ⟨r0, hr0⟩ := List.isPrefixOf_iff_prefix.mp hp
            have : (fence ++ r0).drop 3 = r0 := by simp [fence]
            rw [← hr0, this]
          have hmid : cs.drop 3 = tag ++ '\n' :: afterNl := by
            rw [← htag, ← heq]
            exact (List.takeWhile_append_dropWhile _ _).symm
          have hnl : afterNl = body ++ '\n' :: afterBody := by
            rw [← hbody, ← heq2]
            exact (List.takeWhile_append_dropWhile _ _).symm
          have hab : afterBody = fence ++ rest := by
            obtain ⟨r0, hr0⟩ := List.isPrefixOf_iff_prefix.mp hp2
            have : (fence ++ r0).drop 3 = r0 := by simp [fence]
            rw [← hr0, ← hrest, ← hr0, this]
          refine ⟨?_, ?_, ?_⟩
          · rw [hcs, hmid, hnl, hab]
            simp
          · intro c hc
            rw [← htag] at hc
            exact List.mem_takeWhile_imp hc
          · intro c hc
            rw [← hbody] at hc
            simpa using List.mem_takeWhile_imp hc

/-- Soundness of the scan: every reported (tag, body) pair comes from an
exact `` ```tag\nbody\n``` `` occurrence in the input. -/
theorem findBlocksGo_sound (fuel : Nat) :
    ∀ (cs : Str) (p : Str × Str), p ∈ findBlocksGo fuel cs →
    ∃ pre rest, cs = pre ++ fence ++ p.1 ++ '\n' :: p.2 ++ '\n' :: fence ++ rest ∧
      (∀ c ∈ p.1, isWordChar c = true) ∧ (∀ c ∈ p.2, c ≠ '\n') := by
  induction fuel with
  | zero =>
    intro cs p hp
    simp [findBlocksGo] at hp
  | succ n ih =>
    intro cs p hp
    match cs with
    | [] => simp [findBlocksGo] at hp
    | c :: cs' =>
      rw [findBlocksGo] at hp
      cases hm : matchBlockAt (c :: cs') with
      | some tbr =>
        obtain ⟨tg, bd, rst⟩ := tbr
        rw [hm] at hp
        simp only [List.mem_cons] at hp
        obtain ⟨hdec, htag, hbody⟩ := matchBlockAt_decomp (c :: cs') tg bd rst hm
        rcases hp with hp | hp
        · subst hp
          exact ⟨[], rst, by simpa using hdec, htag, hbody⟩
        · obtain ⟨pre2, rest2, hdec2, htag2, hbody2⟩ := ih rst p hp
          refine ⟨fence ++ tg ++ '\n' :: bd ++ '\n' :: fence ++ pre2, rest2, ?_, htag2, hbody2⟩
          rw [hdec, hdec2]
          simp
      | none =>
        rw [hm] at hp
        obtain ⟨pre2, rest2, hdec2, htag2, hbody2⟩ := ih cs' p hp
        exact ⟨c :: pre2, rest2, by rw [hdec2]; rfl, htag2, hbody2⟩

/-! ## Claim C10 -/

/-- Claim C10: every fragment produced by markdown extraction stems from
an exact `` ```tag\nbody\n``` `` occurrence whose tag consists of word
characters only and whose body is one newline-free line; consequently a
fenced block whose info string has a character outside `\w` (`c++`) or
with no line between its fences contributes nothing — it is dropped
silently rather than labeled `text`, as the two concrete inputs show. -/
theorem processMarkdown_fragment_shape :
    (∀ (content filePath : Str) (b : CodeBlock),
      b ∈ (processMarkdown content filePath).codeBlocks →
      ∃ tagl body pre rest,
        content = pre ++ fence ++ tagl ++ '\n' :: body ++ '\n' :: fence ++ rest ∧
        (∀ c ∈ tagl, isWordChar c = true) ∧ (∀ c ∈ body, c ≠ '\n') ∧
        b.code = body ∧
        b.language = (if tagl.isEmpty then str "text" else tagl)) ∧
    (processMarkdown (str "```c++\nx\n```") (str "x.md")).codeBlocks = [] ∧
    (processMarkdown (str "```go\n```") (str "x.md")).codeBlocks = [] := by
  refine ⟨?_, rfl, rfl⟩
  intro content filePath b hb
  simp only [processMarkdown] at hb
  obtain ⟨p, hp, hbp⟩ := List.mem_map.mp hb
  obtain ⟨pre, rest, hdec, htag, hbody⟩ := findBlocksGo_sound content.length content p hp
  exact ⟨p.1, p.2, pre, rest, hdec, htag, hbody, by rw [← hbp], by rw [← hbp]⟩

/-- Witness for `processMarkdown_fragment_shape`. -/
theorem processMarkdown_fragment_shape_witness :
    ({ language := str "go", code := str "x", embedding := none } : CodeBlock) ∈
      (processMarkdown (str "```go\nx\n```") (str "x.md")).codeBlocks ∧
    (∃ tagl body pre rest,
      str "```go\nx\n```" = pre ++ fence ++ tagl ++ '\n' :: body ++ '\n' :: fence ++ rest ∧
      (∀ c ∈ tagl, isWordChar c = true) ∧ (∀ c ∈ body, c ≠ '\n') ∧
      ({ language := str "go", code := str "x", embedding := none } : CodeBlock).code = body ∧
      ({ language := str "go", code := str "x", embedding := none } : CodeBlock).language =
        (if tagl.isEmpty then str "text" else tagl)) :=
  ⟨by decide,
   processMarkdown_fragment_shape.1 (str "```go\nx\n```") (str "x.md") _ (by decide)⟩

end LlmTxt
